import Mathlib

/-!
# Verification of the tesselate surface-curve trimming pipeline

Shallow embedding of `src/tesselate/multi_nurbs_intersectioning.py` over exact
rational arithmetic (`ℚ` in place of IEEE floats).  Conventions used throughout:

* 2D points / vectors are `ℚ × ℚ`, 3D points are `ℚ × ℚ × ℚ`.
* Every comparison `np.linalg.norm v < c` that the source performs against a
  nonnegative tolerance `c` is embedded as `sqNorm v < c^2`, which is equivalent
  for `0 ≤ c` since both sides of the original comparison are nonnegative.
  Accordingly the `residual` value carried around by the pipeline is stored as
  the *squared* Euclidean norm; comparisons between two residuals
  (`item[3] < clustered[-1][3]`) are order-isomorphic to the original ones.
* The NaN-sentinel 3D point `[nan, nan, nan]` returned by
  `GlobalUVSpline.evaluate3D` for out-of-domain UV coordinates is embedded as
  `none : Option Point3`; an in-domain evaluation is `some p`.
* `np.linalg.solve` on a 2×2 system raising `LinAlgError` (singular matrix) is
  embedded as an `Option`-valued solver returning `none` exactly when the
  determinant vanishes.
* Python's duck-typed curve objects (anything with `evaluate_single` /
  `derivatives`, resp. `evaluate_uv` / `derivative_uv`) are embedded as a
  record of two functions `ℚ → ℚ × ℚ` (value and first derivative).
-/

namespace Tesselate

/-- A 2D point / vector in UV space. -/
abbrev Vec2 : Type := ℚ × ℚ

/-- A 3D point. -/
abbrev Point3 : Type := ℚ × ℚ × ℚ

/-- Squared Euclidean norm of a 2D vector; stands for `np.linalg.norm v ** 2`. -/
def sqNorm (v : Vec2) : ℚ := v.1 * v.1 + v.2 * v.2

/-- `np.clip(x, 0.0, 1.0)` (equivalently `max(0.0, min(1.0, x))`). -/
def clip01 (x : ℚ) : ℚ := max 0 (min 1 x)

/-- `bernstein_poly(i, n, t) = comb(n, i) * t**i * (1 - t)**(n - i)`. -/
def bernstein_poly (i n : ℕ) (t : ℚ) : ℚ :=
  (n.choose i : ℚ) * t ^ i * (1 - t) ^ (n - i)

/-- The tensor-product Bézier evaluator produced by `make_bezier_surface` for a
control net `ctrl` of shape `(m+1) × (n+1)`:
`Σ_i Σ_j B_u[i] * B_v[j] * ctrl[i][j]` (the double `np.tensordot` contraction,
first of `B_v` against axis 1, then of `B_u` against axis 0). -/
def surfEval (m n : ℕ) (ctrl : ℕ → ℕ → Point3) (u v : ℚ) : Point3 :=
  ∑ i ∈ Finset.range (m + 1), ∑ j ∈ Finset.range (n + 1),
    (bernstein_poly i m u * bernstein_poly j n v) • ctrl i j

/-- First-match lookup in an association list: the semantics of Python's
`dict.get(key, None)` for a dict built by insertion (keys unique). -/
def lookupA {α β : Type} [DecidableEq α] : List (α × β) → α → Option β
  | [], _ => none
  | (k, v) :: rest, a => if k = a then some v else lookupA rest a

/-- The state assembled by `MultiBezierSurface.__init__`.  The control grid is
a total function `ℕ → ℕ → Point3` together with its declared shape `(nx, ny)`;
each stored patch keeps its `(pi, pj)` coordinate and the sliced
`patch_size × patch_size` sub-grid
`ctrlgrid[pi*step : pi*step+patch_size, pj*step : pj*step+patch_size]`
(as an offset function).  `idx_by_coord` is the insertion-ordered dict
`{(pi, pj) ↦ patch index}`; its keys are `ℤ × ℤ` because lookups come from
`int(np.floor(...))`, which can be negative. -/
structure MultiBezierSurface : Type where
  nx : ℕ
  ny : ℕ
  ctrlgrid : ℕ → ℕ → Point3
  patch_size : ℕ
  step : ℕ
  px : ℕ
  py : ℕ
  patches : List ((ℕ × ℕ) × (ℕ → ℕ → Point3))
  idx_by_coord : List ((ℤ × ℤ) × ℕ)

/-- The `(pi, pj)` pairs visited by the double loop
`for pi in range(px): for pj in range(py)` in construction order. -/
def patchCoords (px py : ℕ) : List (ℕ × ℕ) :=
  (List.range px).product (List.range py)

/-- `MultiBezierSurface.__init__(ctrlgrid, patch_size)`.  Note carefully that the
source computes `px = (nx - 1) // step` and `py = (ny - 1) // step` with floor
division and raises no error when the division is inexact; `ℕ` division is
exactly Python's floor division on these nonnegative operands. -/
def mkMultiBezierSurface (grid : ℕ → ℕ → Point3) (nx ny patch_size : ℕ) :
    MultiBezierSurface :=
  let step := patch_size - 1
  let px := (nx - 1) / step
  let py := (ny - 1) / step
  let coords := patchCoords px py
  { nx := nx
    ny := ny
    ctrlgrid := grid
    patch_size := patch_size
    step := step
    px := px
    py := py
    patches := coords.map fun q =>
      (q, fun a b => grid (q.1 * step + a) (q.2 * step + b))
    idx_by_coord := coords.enum.map fun e =>
      (((e.2.1 : ℤ), (e.2.2 : ℤ)), e.1) }

/-- `MultiBezierSurface.patch_from_coord(pi, pj)`:
`self.idx_by_coord.get((pi, pj), None)`. -/
def patch_from_coord (ms : MultiBezierSurface) (pi pj : ℤ) : Option ℕ :=
  lookupA ms.idx_by_coord (pi, pj)

/-- `MultiBezierSurface.eval_patch(idx, u, v)`: evaluate the stored Bézier patch
closure (the source only ever calls this with a valid index obtained from
`patch_from_coord`; the default value covers the out-of-range index that
Python would make an `IndexError`). -/
def eval_patch (ms : MultiBezierSurface) (idx : ℕ) (u v : ℚ) : Point3 :=
  surfEval (ms.patch_size - 1) (ms.patch_size - 1)
    ((ms.patches.getD idx ((0, 0), fun _ _ => (0, 0, 0))).2) u v

/-- `GlobalUVSpline.evaluate3D(t, multi_surf)` at a scalar parameter, for a UV
curve with evaluation function `evalUV`.  `none` is the `[nan, nan, nan]`
sentinel row; the function is total (the source raises no exception here). -/
def evaluate3D (evalUV : ℚ → Vec2) (t : ℚ) (ms : MultiBezierSurface) :
    Option Point3 :=
  let uv := evalUV t
  let pi : ℤ := ⌊uv.1⌋
  let pj : ℤ := ⌊uv.2⌋
  let u_local := clip01 (uv.1 - (pi : ℚ))
  let v_local := clip01 (uv.2 - (pj : ℚ))
  match patch_from_coord ms pi pj with
  | none => none
  | some pidx => some (eval_patch ms pidx u_local v_local)

/-- `np.linspace(a, b, k)` as a list of rationals (`k` uniformly spaced points
including both endpoints; for `k = 1` the sole point is `a`, matching numpy,
because `ℚ` division by zero is zero). -/
def linspaceQ (a b : ℚ) (k : ℕ) : List ℚ :=
  (List.range k).map fun i => a + (b - a) * i / ((k : ℚ) - 1)

/-- `segment_intersection_2d(p1, p2, q1, q2)`: `none` for (near-)parallel
segments (`|r × s| < 1e-12`) or parameters outside `[0,1]²`, otherwise the
local parameters `(t, u)` of the crossing on each segment. -/
def segment_intersection_2d (p1 p2 q1 q2 : Vec2) : Option (ℚ × ℚ) :=
  let r : Vec2 := (p2.1 - p1.1, p2.2 - p1.2)
  let s : Vec2 := (q2.1 - q1.1, q2.2 - q1.2)
  let r_cross_s := r.1 * s.2 - r.2 * s.1
  if |r_cross_s| < 1e-12 then none
  else
    let q_p : Vec2 := (q1.1 - p1.1, q1.2 - p1.2)
    let t := (q_p.1 * s.2 - q_p.2 * s.1) / r_cross_s
    let u := (q_p.1 * r.2 - q_p.2 * r.1) / r_cross_s
    if 0 ≤ t ∧ t ≤ 1 ∧ 0 ≤ u ∧ u ≤ 1 then some (t, u) else none

/-- One edge test of the ray-casting loop in `point_in_polygon`: toggles the
`inside` flag when the horizontal ray from `pt` crosses the edge
`(x0,y0)-(x1,y1)`, with the source's `1e-30` denominator guard. -/
def pipEdge (pt : Vec2) (e0 e1 : Vec2) (inside : Bool) : Bool :=
  if ((e0.2 > pt.2) ≠ (e1.2 > pt.2)) ∧
      pt.1 < (e1.1 - e0.1) * (pt.2 - e0.2) / (e1.2 - e0.2 + 1e-30) + e0.1
  then !inside else inside

/-- `point_in_polygon(pt, poly)`: ray casting over the edges
`poly[i] → poly[(i+1) % n]` for `i in range(n)`. -/
def point_in_polygon (pt : Vec2) (poly : List Vec2) : Bool :=
  let n := poly.length
  (List.range n).foldl
    (fun inside i =>
      pipEdge pt (poly.getD i (0, 0)) (poly.getD ((i + 1) % n) (0, 0)) inside)
    false

/-- The duck-typed curve capability shared by `GlobalUVSpline`
(`evaluate_uv` / `derivative_uv`) and the trim-curve objects
(`evaluate_single` / `derivatives(order=1)`): a point evaluator and a first
derivative, both `ℚ → ℚ × ℚ`. -/
structure Curve2 : Type where
  eval : ℚ → Vec2
  deriv : ℚ → Vec2

/-- The 2D residual `F = P(t) - Q(s)` of `refine_intersection_analytic`. -/
def Fvec (cP cQ : Curve2) (t s : ℚ) : Vec2 :=
  ((cP.eval t).1 - (cQ.eval s).1, (cP.eval t).2 - (cQ.eval s).2)

/-- `np.linalg.solve` on the 2×2 system `[[a, b], [c, d]] · δ = r`: `none`
(i.e. `LinAlgError`) exactly when the matrix is singular, else the unique
solution by Cramer's rule. -/
def solve2 (a b c d : ℚ) (r : Vec2) : Option Vec2 :=
  let det := a * d - b * c
  if det = 0 then none
  else some ((r.1 * d - b * r.2) / det, (a * r.2 - r.1 * c) / det)

/-- The Jacobian columns of `refine_intersection_analytic`:
`J = np.column_stack((dP_dt, -dQ_ds))`, i.e. entries
`[[dP.1, -dQ.1], [dP.2, -dQ.2]]`, applied to `-F`. -/
def newtonSolve (cP cQ : Curve2) (t s : ℚ) : Option Vec2 :=
  let dP := cP.deriv t
  let dQ := cQ.deriv s
  let F := Fvec cP cQ t s
  solve2 dP.1 (-dQ.1) dP.2 (-dQ.2) (-F.1, -F.2)

/-- One refined intersection record `(t_ref, s_ref, ok, err)`.  `res2` stores
the squared residual norm (see the file header). -/
structure Isect : Type where
  t : ℚ
  s : ℚ
  ok : Bool
  res2 : ℚ
deriving DecidableEq, Repr

/-- The iteration of `refine_intersection_analytic`, with the remaining loop
iterations as fuel.  Fuel `0` is the source's post-loop exhaustion return
`(t, s, ‖F‖ < tol, ‖F‖)`.  Each positive-fuel step mirrors the loop body in
order: early return on `‖F‖ < tol`; `LinAlgError` return on a singular
Jacobian; Newton update followed by clamping of `t, s` into `[0,1]`; early
return (with the residual recomputed at the new point) on `‖Δ‖ < tol`. -/
def refineAux (cP cQ : Curve2) (tol : ℚ) : ℕ → ℚ → ℚ → Isect
  | 0, t, s =>
    let F := Fvec cP cQ t s
    ⟨t, s, decide (sqNorm F < tol ^ 2), sqNorm F⟩
  | n + 1, t, s =>
    let F := Fvec cP cQ t s
    let r2 := sqNorm F
    if r2 < tol ^ 2 then ⟨t, s, true, r2⟩
    else
      match newtonSolve cP cQ t s with
      | none => ⟨t, s, false, r2⟩
      | some delta =>
        let t' := clip01 (t + delta.1)
        let s' := clip01 (s + delta.2)
        if sqNorm delta < tol ^ 2 then
          ⟨t', s', true, sqNorm (Fvec cP cQ t' s')⟩
        else refineAux cP cQ tol n t' s'

/-- `refine_intersection_analytic(spline_uv, trim_curve, t0, s0, tol,
max_iter=25)`: clamp the seed into `[0,1]²`, then run up to 25 Newton steps. -/
def refine_intersection_analytic (cP cQ : Curve2) (t0 s0 tol : ℚ) : Isect :=
  refineAux cP cQ tol 25 (clip01 t0) (clip01 s0)

/-- The seed pairs `(t_init, s_init)` produced by the double sampling loop of
`clip_spline_by_geomdl_trim` (outer index `i` over spline segments, inner
index `j` over trim segments), in source order. -/
def seedList (cP cQ : Curve2) (nS nT : ℕ) : List (ℚ × ℚ) :=
  let ts := linspaceQ 0 1 (nS + 1)
  let spine := ts.map cP.eval
  let ss := linspaceQ 0 1 (nT + 1)
  let trimPts := ss.map cQ.eval
  (List.range (spine.length - 1)).flatMap fun i =>
    (List.range (trimPts.length - 1)).flatMap fun j =>
      match segment_intersection_2d (spine.getD i (0, 0)) (spine.getD (i + 1) (0, 0))
          (trimPts.getD j (0, 0)) (trimPts.getD (j + 1) (0, 0)) with
      | none => []
      | some lu =>
        [(ts.getD i 0 + lu.1 * (ts.getD (i + 1) 0 - ts.getD i 0),
          ss.getD j 0 + lu.2 * (ss.getD (j + 1) 0 - ss.getD j 0))]

/-- The unclustered `intersections` list of `clip_spline_by_geomdl_trim`: the
same double loop, appending `refine_intersection_analytic(...)` for every
crossing segment pair. -/
def rawIntersections (cP cQ : Curve2) (nS nT : ℕ) (tol : ℚ) : List Isect :=
  let ts := linspaceQ 0 1 (nS + 1)
  let spine := ts.map cP.eval
  let ss := linspaceQ 0 1 (nT + 1)
  let trimPts := ss.map cQ.eval
  (List.range (spine.length - 1)).flatMap fun i =>
    (List.range (trimPts.length - 1)).flatMap fun j =>
      match segment_intersection_2d (spine.getD i (0, 0)) (spine.getD (i + 1) (0, 0))
          (trimPts.getD j (0, 0)) (trimPts.getD (j + 1) (0, 0)) with
      | none => []
      | some lu =>
        [refine_intersection_analytic cP cQ
          (ts.getD i 0 + lu.1 * (ts.getD (i + 1) 0 - ts.getD i 0))
          (ss.getD j 0 + lu.2 * (ss.getD (j + 1) 0 - ss.getD j 0)) tol]

/-- Insertion of one element into a list kept sorted by the key `f`
(used to embed Python's stable `sorted(..., key=...)`). -/
def insertKey {α : Type} (f : α → ℚ) (x : α) : List α → List α
  | [] => [x]
  | y :: ys => if f x ≤ f y then x :: y :: ys else y :: insertKey f x ys

/-- Sorting by the key `f` (insertion sort; extensionally the ordering
behaviour of Python's `sorted` for our purposes). -/
def sortKey {α : Type} (f : α → ℚ) (l : List α) : List α :=
  l.foldr (insertKey f) []

/-- `sorted(intersections, key=lambda x: x[0])`. -/
def sortByT (l : List Isect) : List Isect := sortKey (fun x : Isect => x.t) l

/-- One iteration of the clustering loop: Python's
`if not clustered: append; elif |item.t - clustered[-1].t| < 1e-6:
 (replace last if item has smaller residual); else: append`. -/
def clusterStep (clustered : List Isect) (item : Isect) : List Isect :=
  match clustered.getLast? with
  | none => [item]
  | some last =>
    if |item.t - last.t| < 1e-6 then
      if item.res2 < last.res2 then clustered.dropLast ++ [item] else clustered
    else clustered ++ [item]

/-- The clustering pass over the (sorted) refined intersections. -/
def cluster (l : List Isect) : List Isect := l.foldl clusterStep []

/-- `t_vals = sorted(set(clip(t) for t in [0.0] + [i.t ...] + [1.0]))`. -/
def buildTvals (ints : List Isect) : List ℚ :=
  sortKey id ((([0] ++ ints.map (fun x : Isect => x.t) ++ [1]).map clip01).dedup)

/-- One output segment `{'t0', 't1', 't', 'UV', 'pts3d'}`. -/
structure TrimSegment : Type where
  t0 : ℚ
  t1 : ℚ
  ts : List ℚ
  UV : List Vec2
  pts3d : List (Option Point3)

/-- The partition/classification loop of `clip_spline_by_geomdl_trim`: for
each consecutive pair `(a, b)` of `t_vals`, skip it when `b - a < 1e-12`,
otherwise keep it iff the UV point at the midpoint lies inside the sampled
trim polygon, resampling the kept sub-interval at `sample_per_segment`
uniform parameters. -/
def segCandidate (cP : Curve2) (ms : MultiBezierSurface) (tvals : List ℚ)
    (trimPts : List Vec2) (nseg : ℕ) (k : ℕ) : List TrimSegment :=
  let a := tvals.getD k 0
  let b := tvals.getD (k + 1) 0
  if b - a < 1e-12 then []
  else
    let mid := (1 / 2 : ℚ) * (a + b)
    if point_in_polygon (cP.eval mid) trimPts then
      let seg_t := linspaceQ a b nseg
      [{ t0 := a, t1 := b, ts := seg_t, UV := seg_t.map cP.eval,
         pts3d := seg_t.map fun t => evaluate3D cP.eval t ms }]
    else []

/-- The whole partition loop: candidates for every consecutive pair of
`t_vals`, in order. -/
def buildSegments (cP : Curve2) (ms : MultiBezierSurface) (tvals : List ℚ)
    (trimPts : List Vec2) (nseg : ℕ) : List TrimSegment :=
  (List.range (tvals.length - 1)).flatMap (segCandidate cP ms tvals trimPts nseg)

/-- The full return value of `clip_spline_by_geomdl_trim`. -/
structure ClipResult : Type where
  segments : List TrimSegment
  intersections : List Isect
  spine : List Vec2
  ts : List ℚ
  trimPts : List Vec2
  ss : List ℚ

/-- `clip_spline_by_geomdl_trim(spline_uv, trim_curve, multi_surf,
n_spline_samples, n_trim_samples, refine_tol, sample_per_segment)`. -/
def clip_spline_by_geomdl_trim (cP cQ : Curve2) (ms : MultiBezierSurface)
    (nS nT : ℕ) (tol : ℚ) (nseg : ℕ) : ClipResult :=
  let ts := linspaceQ 0 1 (nS + 1)
  let spine := ts.map cP.eval
  let ss := linspaceQ 0 1 (nT + 1)
  let trimPts := ss.map cQ.eval
  let ints := cluster (sortByT (rawIntersections cP cQ nS nT tol))
  { segments := buildSegments cP ms (buildTvals ints) trimPts nseg
    intersections := ints
    spine := spine
    ts := ts
    trimPts := trimPts
    ss := ss }

/-! ### Proof-artifact definitions and concrete instances

`clusterRec` is a tail-recursive reformulation of the clustering loop used
only inside proofs (its agreement with `cluster` is proved below).  The
remaining definitions are concrete curves/surfaces used to instantiate
theorems at specific inputs. -/

/-- Recursive form of the clustering loop: `cur` is `clustered[-1]`, the
already-frozen prefix is implicit. -/
def clusterRec : Isect → List Isect → List Isect
  | cur, [] => [cur]
  | cur, y :: rest =>
    if |y.t - cur.t| < 1e-6 then
      clusterRec (if y.res2 < cur.res2 then y else cur) rest
    else cur :: clusterRec y rest

/-- A linear UV curve whose root with `cexQ` lies marginally outside `[0,1]`:
`P(t) = (2000·(t − 1 − 10⁻¹¹), 0)` with its exact derivative `(2000, 0)`
(representable as a degree-1 B-spline). -/
def cexP : Curve2 := ⟨fun t => (2000 * t - 2000 - 2 / 100000000, 0), fun _ => (2000, 0)⟩

/-- The matching trim curve `Q(s) = (0, s)` with derivative `(0, 1)`. -/
def cexQ : Curve2 := ⟨fun s => (0, s), fun _ => (0, 1)⟩

/-- A pair of coincident constant curves (residual identically zero). -/
def zeroCurve : Curve2 := ⟨fun _ => (0, 0), fun _ => (0, 0)⟩

/-- Curve with a singular Newton system against `singQ`: `P(t) = (t, 0)`. -/
def singP : Curve2 := ⟨fun t => (t, 0), fun _ => (1, 0)⟩

/-- Constant trim curve `(5, 5)`; its vanishing derivative makes the Jacobian
singular. -/
def singQ : Curve2 := ⟨fun _ => (5, 5), fun _ => (0, 0)⟩

/-- Horizontal segment curve `P(t) = (t, 0)` crossing `seedQ` at `t = 1/2`. -/
def seedP : Curve2 := ⟨fun t => (t, 0), fun _ => (1, 0)⟩

/-- Vertical segment curve `Q(s) = (1/2, s - 1/2)`. -/
def seedQ : Curve2 := ⟨fun s => (1 / 2, s - 1 / 2), fun _ => (0, 1)⟩

/-- UV curve lying entirely inside the square sampled from `insideQ`:
`P(t) = (1 + t/10, 1)`. -/
def insideP : Curve2 := ⟨fun t => (1 + t / 10, 1), fun _ => (1 / 10, 0)⟩

/-- Trim curve whose 5 uniform samples trace the closed square
`(-1,-1) → (3,-1) → (3,3) → (-1,3) → (-1,-1)`. -/
def insideQ : Curve2 :=
  ⟨fun s =>
    if s ≤ 0 then (-1, -1)
    else if s ≤ 1 / 4 then (3, -1)
    else if s ≤ 1 / 2 then (3, 3)
    else if s ≤ 3 / 4 then (-1, 3)
    else (-1, -1),
   fun _ => (0, 0)⟩

/-- An all-zero control grid. -/
def gridZ : ℕ → ℕ → Point3 := fun _ _ => (0, 0, 0)

/-- A minimal one-patch surface (2×2 grid, `patch_size = 2`). -/
def msUnit : MultiBezierSurface := mkMultiBezierSurface gridZ 2 2 2

/-- A constant UV curve sitting inside the `insideQ` square. -/
def constInsideP : Curve2 := ⟨fun _ => (21 / 20, 1), fun _ => (0, 0)⟩

/-- The sampled square polygon of `insideQ` (5 points, closing duplicate). -/
def squarePoly : List Vec2 := (linspaceQ 0 1 5).map insideQ.eval

/-- The first stored patch of the 6×7 grid with `patch_size = 4` (coordinate
`(0,0)`, slice at offset `(0,0)`). -/
def patchW : (ℕ × ℕ) × (ℕ → ℕ → Point3) :=
  ((0, 0), fun a b => gridZ (0 * (4 - 1) + a) (0 * (4 - 1) + b))

/-- A UV evaluation landing outside the one-patch surface `msUnit`. -/
def outsideUV : ℚ → Vec2 := fun _ => (5, 0)

/-- A UV evaluation landing inside the one-patch surface `msUnit`. -/
def midUV : ℚ → Vec2 := fun _ => (1 / 2, 1 / 2)

/-- Decidable unit-box membership for one intersection record, `Bool`-valued
so the pipeline invariant can be phrased without hypotheses. -/
def inUnitBox (x : Isect) : Bool :=
  decide (0 ≤ x.t) && decide (x.t ≤ 1) && decide (0 ≤ x.s) && decide (x.s ≤ 1)

/-! ## Theorems -/

/-- Everything at or above the clamp bounds: `np.clip(x, 0, 1) ∈ [0, 1]`. -/
theorem clip01_nonneg (x : ℚ) : 0 ≤ clip01 x := le_max_left 0 _

theorem clip01_le_one (x : ℚ) : clip01 x ≤ 1 :=
  max_le (by norm_num) (min_le_left 1 x)

/-- The Bernstein weight vector at `t = 0` is the indicator of index 0
(`0 ** 0 == 1` in Python as well). -/
theorem bernstein_poly_at_zero (i n : ℕ) :
    bernstein_poly i n 0 = if i = 0 then 1 else 0 := by
  unfold bernstein_poly
  rcases Nat.eq_zero_or_pos i with h | h
  · subst h; simp
  · rw [if_neg (Nat.pos_iff_ne_zero.1 h)]
    simp [zero_pow (Nat.pos_iff_ne_zero.1 h)]

/-- The Bernstein weight vector at `t = 1` is the indicator of the top index. -/
theorem bernstein_poly_at_one (i n : ℕ) :
    bernstein_poly i n 1 = if i = n then 1 else 0 := by
  unfold bernstein_poly
  rcases lt_trichotomy i n with h | h | h
  · rw [if_neg (ne_of_lt h)]
    simp [zero_pow (Nat.sub_ne_zero_of_lt h)]
  · subst h; simp
  · rw [if_neg (ne_of_gt h), Nat.choose_eq_zero_of_lt h]
    simp

/-- Helper: a double Bernstein sum with both parameters at a corner collapses
to a single control point. -/
theorem surfEval_corner (m n a b : ℕ) (ctrl : ℕ → ℕ → Point3)
    (ha : a ≤ m) (hb : b ≤ n) (u v : ℚ)
    (hu : ∀ i, bernstein_poly i m u = if i = a then 1 else 0)
    (hv : ∀ j, bernstein_poly j n v = if j = b then 1 else 0) :
    surfEval m n ctrl u v = ctrl a b := by
  unfold surfEval
  rw [Finset.sum_eq_single a]
  · rw [Finset.sum_eq_single b]
    · simp [hu, hv]
    · intro j _ hj; simp [hu, hv, hj]
    · intro hb'; exact absurd (Finset.mem_range.2 (Nat.lt_succ_of_le hb)) hb'
  · intro i _ hi
    apply Finset.sum_eq_zero
    intro j _
    simp [hu, hi]
  · intro ha'; exact absurd (Finset.mem_range.2 (Nat.lt_succ_of_le ha)) ha'

/-- **C7.** For every patch built from a `p × p` control sub-grid (here
`p = m + 1`, control net `ctrl`), the tensor-product Bernstein evaluation of
`make_bezier_surface` at the four parameter corners reproduces the four corner
control points exactly, over exact arithmetic: `evaluate(0,0) = ctrl[0][0]`,
`evaluate(1,0) = ctrl[p-1][0]`, `evaluate(0,1) = ctrl[0][p-1]`,
`evaluate(1,1) = ctrl[p-1][p-1]`. -/
theorem corner_interpolation (m : ℕ) (ctrl : ℕ → ℕ → Point3) :
    surfEval m m ctrl 0 0 = ctrl 0 0 ∧
    surfEval m m ctrl 1 0 = ctrl m 0 ∧
    surfEval m m ctrl 0 1 = ctrl 0 m ∧
    surfEval m m ctrl 1 1 = ctrl m m :=
  ⟨surfEval_corner m m 0 0 ctrl (Nat.zero_le m) (Nat.zero_le m) 0 0
      (fun i => bernstein_poly_at_zero i m) (fun j => bernstein_poly_at_zero j m),
   surfEval_corner m m m 0 ctrl le_rfl (Nat.zero_le m) 1 0
      (fun i => bernstein_poly_at_one i m) (fun j => bernstein_poly_at_zero j m),
   surfEval_corner m m 0 m ctrl (Nat.zero_le m) le_rfl 0 1
      (fun i => bernstein_poly_at_zero i m) (fun j => bernstein_poly_at_one j m),
   surfEval_corner m m m m ctrl le_rfl le_rfl 1 1
      (fun i => bernstein_poly_at_one i m) (fun j => bernstein_poly_at_one j m)⟩

/-- The unclustered intersections list is exactly the seed list mapped through
Newton refinement (the source interleaves the refinement call inside the
seed-finding double loop; the order and multiset of results coincide). -/
theorem rawIntersections_eq_map (cP cQ : Curve2) (nS nT : ℕ) (tol : ℚ) :
    rawIntersections cP cQ nS nT tol =
      (seedList cP cQ nS nT).map
        (fun pr => refine_intersection_analytic cP cQ pr.1 pr.2 tol) := by
  simp only [rawIntersections, seedList]
  rw [List.map_flatMap]
  congr 1
  funext i
  rw [List.map_flatMap]
  congr 1
  funext j
  rcases h : segment_intersection_2d _ _ _ _ with _ | lu <;> simp

/-- **C2 (counterexample).** The claim "for every intersection with
converged=true, ‖P(t) − Q(s)‖ < refine_tol·10" fails: for the linear curves
`cexP`, `cexQ` (root at `t = 1 + 10⁻¹¹`, just outside the clamped domain) and
seed `(1, 0)` with `refine_tol = 10⁻⁹`, refinement reports `converged = true`
through the small-Newton-step exit while the returned squared residual is
`4·10⁻¹⁶ = (2·10⁻⁸)² ≥ (10⁻⁸)² = (refine_tol·10)²`. -/
theorem root_validity_counterexample :
    (refine_intersection_analytic cexP cexQ 1 0 (1 / 1000000000)).ok = true ∧
    ¬ (refine_intersection_analytic cexP cexQ 1 0 (1 / 1000000000)).res2 <
        ((1 / 1000000000 : ℚ) * 10) ^ 2 := by
  have h : refine_intersection_analytic cexP cexQ 1 0 (1 / 1000000000) =
      ⟨1, 0, true, 1 / 2500000000000000⟩ := by
    unfold refine_intersection_analytic
    have hc1 : clip01 (1 : ℚ) = 1 := by norm_num [clip01]
    have hc0 : clip01 (0 : ℚ) = 0 := by norm_num [clip01]
    rw [hc1, hc0, show (25 : ℕ) = 24 + 1 from rfl, refineAux]
    norm_num [Fvec, sqNorm, cexP, cexQ, newtonSolve, solve2, clip01]
  rw [h]
  norm_num

/-- **C2 (amended).** What the code guarantees on every `converged = true`
exit of `refine_intersection_analytic`: either the (squared) residual is below
the (squared) tolerance, or the exit was the small-Newton-step one — the final
parameters are the clamp of a step of norm below the tolerance and the
reported residual is the one recomputed at those final parameters.  The
residual itself need not be below `refine_tol·10`. -/
theorem converged_means_residual_or_small_step (cP cQ : Curve2) (tol : ℚ)
    (fuel : ℕ) (t s : ℚ)
    (hok : (refineAux cP cQ tol fuel t s).ok = true) :
    (refineAux cP cQ tol fuel t s).res2 < tol ^ 2 ∨
    ∃ tp sq d1 d2 : ℚ, sqNorm (d1, d2) < tol ^ 2 ∧
      (refineAux cP cQ tol fuel t s).t = clip01 (tp + d1) ∧
      (refineAux cP cQ tol fuel t s).s = clip01 (sq + d2) ∧
      (refineAux cP cQ tol fuel t s).res2 =
        sqNorm (Fvec cP cQ (refineAux cP cQ tol fuel t s).t
          (refineAux cP cQ tol fuel t s).s) := by
  induction fuel generalizing t s with
  | zero =>
    simp only [refineAux] at hok ⊢
    exact Or.inl (of_decide_eq_true hok)
  | succ n ih =>
    simp only [refineAux] at hok ⊢
    by_cases h1 : sqNorm (Fvec cP cQ t s) < tol ^ 2
    · rw [if_pos h1] at hok ⊢; exact Or.inl h1
    · rw [if_neg h1] at hok ⊢
      rcases hns : newtonSolve cP cQ t s with _ | delta
      · rw [hns] at hok; simp at hok
      · rw [hns] at hok
        dsimp only at hok ⊢
        by_cases h2 : sqNorm delta < tol ^ 2
        · rw [if_pos h2] at hok ⊢
          exact Or.inr ⟨t, s, delta.1, delta.2, h2, rfl, rfl, rfl⟩
        · rw [if_neg h2] at hok ⊢
          exact ih _ _ hok

/-- Witness for `converged_means_residual_or_small_step` at a concrete input
(two coincident constant curves; convergence is immediate). -/
theorem converged_means_residual_or_small_step_witness :
    (refineAux zeroCurve zeroCurve 1 25 0 0).ok = true ∧
    ((refineAux zeroCurve zeroCurve 1 25 0 0).res2 < (1 : ℚ) ^ 2 ∨
    ∃ tp sq d1 d2 : ℚ, sqNorm (d1, d2) < (1 : ℚ) ^ 2 ∧
      (refineAux zeroCurve zeroCurve 1 25 0 0).t = clip01 (tp + d1) ∧
      (refineAux zeroCurve zeroCurve 1 25 0 0).s = clip01 (sq + d2) ∧
      (refineAux zeroCurve zeroCurve 1 25 0 0).res2 =
        sqNorm (Fvec zeroCurve zeroCurve (refineAux zeroCurve zeroCurve 1 25 0 0).t
          (refineAux zeroCurve zeroCurve 1 25 0 0).s)) := by
  have hok : (refineAux zeroCurve zeroCurve 1 25 0 0).ok = true := by
    rw [show (25 : ℕ) = 24 + 1 from rfl, refineAux]
    norm_num [Fvec, sqNorm, zeroCurve]
  exact ⟨hok, converged_means_residual_or_small_step zeroCurve zeroCurve 1 25 0 0 hok⟩

/-- **C6.** A singular Jacobian is a soft failure: (first conjunct) whenever a
Newton iteration of `refine_intersection_analytic` is entered (any remaining
fuel) with residual not below tolerance and an unsolvable 2×2 system, the
function returns — it does not raise — the current `(t, s)` with
`converged = false` and the residual of the last evaluated `F`; (second
conjunct) every seed's refinement result is appended to the pipeline's
unclustered intersections list, so the seed is retained rather than discarded
and the remaining seeds are still processed. -/
theorem singular_jacobian_soft_failure :
    (∀ (cP cQ : Curve2) (tol : ℚ) (fuel : ℕ) (t s : ℚ),
        ¬ sqNorm (Fvec cP cQ t s) < tol ^ 2 →
        newtonSolve cP cQ t s = none →
        refineAux cP cQ tol (fuel + 1) t s =
          ⟨t, s, false, sqNorm (Fvec cP cQ t s)⟩) ∧
    (∀ (cP cQ : Curve2) (nS nT : ℕ) (tol : ℚ) (pr : ℚ × ℚ),
        pr ∈ seedList cP cQ nS nT →
        refine_intersection_analytic cP cQ pr.1 pr.2 tol ∈
          rawIntersections cP cQ nS nT tol) := by
  constructor
  · intro cP cQ tol fuel t s h1 h2
    rw [refineAux]
    dsimp only
    rw [if_neg h1, h2]
  · intro cP cQ nS nT tol pr hpr
    rw [rawIntersections_eq_map]
    exact List.mem_map_of_mem _ hpr

/-- Witness for `singular_jacobian_soft_failure`: the constant trim curve
`singQ` makes the Jacobian singular against `singP` at `(0, 0)` (first
conjunct), and the crossing of `seedP` and `seedQ` produces the concrete seed
`(1/2, 1/2)` whose refinement appears in the unclustered list (second
conjunct). -/
theorem singular_jacobian_soft_failure_witness :
    (¬ sqNorm (Fvec singP singQ 0 0) < (1 / 1000000000 : ℚ) ^ 2 ∧
     newtonSolve singP singQ 0 0 = none ∧
     refineAux singP singQ (1 / 1000000000) (24 + 1) 0 0 =
       ⟨0, 0, false, sqNorm (Fvec singP singQ 0 0)⟩) ∧
    ((1 / 2, 1 / 2) ∈ seedList seedP seedQ 1 1 ∧
     refine_intersection_analytic seedP seedQ (1 / 2) (1 / 2) (1 / 1000000000) ∈
       rawIntersections seedP seedQ 1 1 (1 / 1000000000)) := by
  have h1 : ¬ sqNorm (Fvec singP singQ 0 0) < (1 / 1000000000 : ℚ) ^ 2 := by
    norm_num [Fvec, sqNorm, singP, singQ]
  have h2 : newtonSolve singP singQ 0 0 = none := by
    norm_num [newtonSolve, solve2, Fvec, singP, singQ]
  have h3 : (1 / 2, 1 / 2) ∈ seedList seedP seedQ 1 1 := by
    norm_num [seedList, linspaceQ, List.range_succ, seedP, seedQ,
      segment_intersection_2d, abs_lt]
  exact ⟨⟨h1, h2, singular_jacobian_soft_failure.1 singP singQ _ 24 0 0 h1 h2⟩,
    ⟨h3, singular_jacobian_soft_failure.2 seedP seedQ 1 1 _ (1 / 2, 1 / 2) h3⟩⟩

/-- Membership is preserved by keyed insertion. -/
theorem mem_insertKey {α : Type} (f : α → ℚ) (x z : α) (l : List α) :
    z ∈ insertKey f x l ↔ z = x ∨ z ∈ l := by
  induction l with
  | nil => simp [insertKey]
  | cons y ys ih =>
    by_cases h : f x ≤ f y
    · simp [insertKey, h]
    · simp [insertKey, h, ih]
      tauto

/-- Keyed insertion preserves sortedness by the key. -/
theorem sorted_insertKey {α : Type} (f : α → ℚ) (x : α) (l : List α)
    (hl : List.Pairwise (fun a b => f a ≤ f b) l) :
    List.Pairwise (fun a b => f a ≤ f b) (insertKey f x l) := by
  induction l with
  | nil => simp [insertKey]
  | cons y ys ih =>
    rcases List.pairwise_cons.1 hl with ⟨hy, hys⟩
    by_cases h : f x ≤ f y
    · rw [insertKey, if_pos h]
      exact List.pairwise_cons.2 ⟨fun b hb => by
        rcases List.mem_cons.1 hb with rfl | hb
        · exact h
        · exact le_trans h (hy b hb), hl⟩
    · rw [insertKey, if_neg h]
      refine List.pairwise_cons.2 ⟨fun b hb => ?_, ih hys⟩
      rcases (mem_insertKey f x b ys).1 hb with rfl | hb
      · exact le_of_not_le h
      · exact hy b hb

/-- `sortKey` sorts by the key. -/
theorem sorted_sortKey {α : Type} (f : α → ℚ) (l : List α) :
    List.Pairwise (fun a b => f a ≤ f b) (sortKey f l) := by
  induction l with
  | nil => exact List.Pairwise.nil
  | cons y ys ih => exact sorted_insertKey f y _ ih

/-- `sortKey` permutes its input. -/
theorem perm_sortKey {α : Type} (f : α → ℚ) (l : List α) :
    (sortKey f l).Perm l := by
  induction l with
  | nil => exact List.Perm.refl _
  | cons y ys ih =>
    have hins : ∀ (x : α) (m : List α), (insertKey f x m).Perm (x :: m) := by
      intro x m
      induction m with
      | nil => exact List.Perm.refl _
      | cons z zs ihm =>
        by_cases h : f x ≤ f z
        · rw [insertKey, if_pos h]
        · rw [insertKey, if_neg h]
          exact (List.Perm.cons z ihm).trans (List.Perm.swap x z zs)
    exact (hins y (sortKey f ys)).trans (List.Perm.cons y ih)

/-- Membership is preserved by `sortKey`. -/
theorem mem_sortKey {α : Type} (f : α → ℚ) (z : α) (l : List α) :
    z ∈ sortKey f l ↔ z ∈ l :=
  (perm_sortKey f l).mem_iff

/-- The imperative clustering fold agrees with its recursive reformulation
(for a nonempty accumulator `init ++ [cur]`, `cur` plays `clustered[-1]`). -/
theorem foldl_clusterStep_concat (rest : List Isect) :
    ∀ (init : List Isect) (cur : Isect),
      List.foldl clusterStep (init ++ [cur]) rest = init ++ clusterRec cur rest := by
  induction rest with
  | nil => intro init cur; rw [clusterRec]; rfl
  | cons y rest ih =>
    intro init cur
    rw [List.foldl_cons]
    by_cases hm : |y.t - cur.t| < 1e-6
    · by_cases hr : y.res2 < cur.res2
      · rw [show clusterStep (init ++ [cur]) y = init ++ [y] by
            simp [clusterStep, List.getLast?_concat, hm, hr, List.dropLast_concat]]
        rw [ih, clusterRec, if_pos hm, if_pos hr]
      · rw [show clusterStep (init ++ [cur]) y = init ++ [cur] by
            simp [clusterStep, List.getLast?_concat, hm, hr]]
        rw [ih, clusterRec, if_pos hm, if_neg hr]
    · rw [show clusterStep (init ++ [cur]) y = (init ++ [cur]) ++ [y] by
          simp [clusterStep, List.getLast?_concat, hm]]
      rw [ih, clusterRec, if_neg hm]
      simp

/-- `cluster` on a nonempty list is `clusterRec`. -/
theorem cluster_cons (x : Isect) (l : List Isect) :
    cluster (x :: l) = clusterRec x l := by
  have h0 : clusterStep [] x = [x] := rfl
  have := foldl_clusterStep_concat l [] x
  simpa [cluster, h0] using this

/-- Every clustering survivor is one of the inputs. -/
theorem mem_clusterRec (rest : List Isect) :
    ∀ (cur z : Isect), z ∈ clusterRec cur rest → z ∈ cur :: rest := by
  induction rest with
  | nil => intro cur z hz; simpa [clusterRec] using hz
  | cons y rest ih =>
    intro cur z hz
    rw [clusterRec] at hz
    by_cases hm : |y.t - cur.t| < 1e-6
    · rw [if_pos hm] at hz
      have := ih _ z hz
      rcases List.mem_cons.1 this with h | h
      · by_cases hr : y.res2 < cur.res2
        · rw [if_pos hr] at h; subst h; simp
        · rw [if_neg hr] at h; subst h; simp
      · simp [h]
    · rw [if_neg hm] at hz
      rcases List.mem_cons.1 hz with h | h
      · simp [h]
      · have := ih _ z h
        rcases List.mem_cons.1 this with h2 | h2 <;> simp [h2]

/-- Every clustering survivor's parameter is bounded below by the current
head's parameter (input sorted by `t`). -/
theorem clusterRec_t_lower (rest : List Isect) :
    ∀ (cur : Isect), List.Pairwise (fun a b : Isect => a.t ≤ b.t) (cur :: rest) →
      ∀ z ∈ clusterRec cur rest, cur.t ≤ z.t := by
  induction rest with
  | nil => intro cur _ z hz; rw [clusterRec] at hz; simp at hz; subst hz; exact le_rfl
  | cons y rest ih =>
    intro cur hp z hz
    rcases List.pairwise_cons.1 hp with ⟨hcur, hyrest⟩
    have hcy : cur.t ≤ y.t := hcur y (List.mem_cons_self y rest)
    rw [clusterRec] at hz
    by_cases hm : |y.t - cur.t| < 1e-6
    · rw [if_pos hm] at hz
      by_cases hr : y.res2 < cur.res2
      · rw [if_pos hr] at hz
        exact le_trans hcy (ih y hyrest z hz)
      · rw [if_neg hr] at hz
        refine ih cur ?_ z hz
        exact List.pairwise_cons.2
          ⟨fun b hb => hcur b (List.mem_cons_of_mem y hb),
           (List.pairwise_cons.1 hyrest).2⟩
    · rw [if_neg hm] at hz
      rcases List.mem_cons.1 hz with h | h
      · subst h; exact le_rfl
      · exact le_trans hcy (ih y hyrest z h)

/-- On a `t`-sorted input the clustering output has consecutive (hence all)
`t`-gaps of at least `1e-6`. -/
theorem clusterRec_gap (rest : List Isect) :
    ∀ (cur : Isect), List.Pairwise (fun a b : Isect => a.t ≤ b.t) (cur :: rest) →
      List.Pairwise (fun a b : Isect => a.t + 1e-6 ≤ b.t) (clusterRec cur rest) := by
  induction rest with
  | nil => intro cur _; rw [clusterRec]; simp
  | cons y rest ih =>
    intro cur hp
    rcases List.pairwise_cons.1 hp with ⟨hcur, hyrest⟩
    have hcy : cur.t ≤ y.t := hcur y (List.mem_cons_self y rest)
    rw [clusterRec]
    by_cases hm : |y.t - cur.t| < 1e-6
    · rw [if_pos hm]
      by_cases hr : y.res2 < cur.res2
      · rw [if_pos hr]; exact ih y hyrest
      · rw [if_neg hr]
        refine ih cur ?_
        exact List.pairwise_cons.2
          ⟨fun b hb => hcur b (List.mem_cons_of_mem y hb),
           (List.pairwise_cons.1 hyrest).2⟩
    · rw [if_neg hm]
      have hgap : cur.t + 1e-6 ≤ y.t := by
        have habs : |y.t - cur.t| = y.t - cur.t := abs_of_nonneg (sub_nonneg.2 hcy)
        have := le_of_not_lt hm
        rw [habs] at this
        linarith
      refine List.pairwise_cons.2 ⟨fun b hb => ?_, ih y hyrest⟩
      exact le_trans hgap (clusterRec_t_lower rest y hyrest b hb)

/-- **C3.** The clustering step applied to any list of refined intersections
(sorted by `t` first, as the pipeline does): (1) the output is sorted in
non-decreasing `t`; (2) no two output entries have `t`-values closer than
`1e-6`; (3) whenever an input entry is merged into the current last cluster
entry (`|item.t - last.t| < 1e-6`), the survivor is the one of the two with
the lower residual — so the survivor of a merged run is its residual
minimum. -/
theorem clustering_sorted_gap_min :
    (∀ xs : List Isect,
        List.Pairwise (fun a b : Isect => a.t ≤ b.t) (cluster (sortByT xs)) ∧
        List.Pairwise (fun a b : Isect => (1e-6 : ℚ) ≤ |b.t - a.t|)
          (cluster (sortByT xs))) ∧
    (∀ (acc : List Isect) (item last : Isect),
        acc.getLast? = some last →
        |item.t - last.t| < 1e-6 →
        clusterStep acc item =
          acc.dropLast ++ [if item.res2 < last.res2 then item else last] ∧
        (if item.res2 < last.res2 then item else last).res2 ≤ item.res2 ∧
        (if item.res2 < last.res2 then item else last).res2 ≤ last.res2) := by
  constructor
  · intro xs
    have hgap : List.Pairwise (fun a b : Isect => a.t + 1e-6 ≤ b.t)
        (cluster (sortByT xs)) := by
      rcases hs : sortByT xs with _ | ⟨x, rest⟩
      · simp [cluster]
      · rw [cluster_cons]
        refine clusterRec_gap rest x ?_
        have := sorted_sortKey (fun x : Isect => x.t) xs
        rw [sortByT] at hs
        rwa [hs] at this
    constructor
    · exact hgap.imp (by intro a b h; linarith)
    · refine hgap.imp ?_
      intro a b h
      have hab : a.t ≤ b.t := by linarith
      rw [abs_of_nonneg (sub_nonneg.2 hab)]
      linarith
  · intro acc item last hlast hm
    have hne : acc ≠ [] := by
      intro h; subst h; simp at hlast
    have hlast2 : acc.getLast hne = last := by
      have := List.getLast?_eq_getLast acc hne
      rw [this] at hlast
      exact (Option.some_inj.1 hlast)
    have hacc : acc.dropLast ++ [last] = acc := by
      rw [← hlast2]; exact List.dropLast_append_getLast hne
    refine ⟨?_, ?_, ?_⟩
    · rw [clusterStep, hlast]
      dsimp only
      rw [if_pos hm]
      by_cases hr : item.res2 < last.res2
      · rw [if_pos hr, if_pos hr]
      · rw [if_neg hr, if_neg hr, hacc]
    · by_cases hr : item.res2 < last.res2
      · rw [if_pos hr]
      · rw [if_neg hr]; exact le_of_not_lt hr
    · by_cases hr : item.res2 < last.res2
      · rw [if_pos hr]; exact le_of_lt hr
      · rw [if_neg hr]

/-- Witness for `clustering_sorted_gap_min` at concrete inputs: a two-element
list whose entries are `5·10⁻⁷` apart (merged, keeping the lower residual). -/
theorem clustering_sorted_gap_min_witness :
    (List.Pairwise (fun a b : Isect => a.t ≤ b.t)
        (cluster (sortByT [⟨0, 0, true, 5⟩, ⟨1 / 2000000, 0, true, 3⟩])) ∧
      List.Pairwise (fun a b : Isect => (1e-6 : ℚ) ≤ |b.t - a.t|)
        (cluster (sortByT [⟨0, 0, true, 5⟩, ⟨1 / 2000000, 0, true, 3⟩]))) ∧
    ([⟨0, 0, true, 5⟩] : List Isect).getLast? = some ⟨0, 0, true, 5⟩ ∧
    |(⟨1 / 2000000, 0, true, 3⟩ : Isect).t - (⟨0, 0, true, 5⟩ : Isect).t| < 1e-6 ∧
    clusterStep [⟨0, 0, true, 5⟩] ⟨1 / 2000000, 0, true, 3⟩ =
      ([⟨0, 0, true, 5⟩] : List Isect).dropLast ++
        [if (⟨1 / 2000000, 0, true, 3⟩ : Isect).res2 < (⟨0, 0, true, 5⟩ : Isect).res2
          then (⟨1 / 2000000, 0, true, 3⟩ : Isect) else ⟨0, 0, true, 5⟩] := by
  have h1 : ([⟨0, 0, true, 5⟩] : List Isect).getLast? = some ⟨0, 0, true, 5⟩ := rfl
  have h2 : |(⟨1 / 2000000, 0, true, 3⟩ : Isect).t - (⟨0, 0, true, 5⟩ : Isect).t| <
      (1e-6 : ℚ) := by
    norm_num [abs_lt]
  exact ⟨(clustering_sorted_gap_min.1 [⟨0, 0, true, 5⟩, ⟨1 / 2000000, 0, true, 3⟩]),
    h1, h2,
    (clustering_sorted_gap_min.2 [⟨0, 0, true, 5⟩] ⟨1 / 2000000, 0, true, 3⟩
      ⟨0, 0, true, 5⟩ h1 h2).1⟩

/-- The Newton iteration keeps `(t, s)` in the unit box once it is there
(every exit returns either the current clamped state or a freshly clamped
update). -/
theorem refineAux_in_unit (cP cQ : Curve2) (tol : ℚ) :
    ∀ (fuel : ℕ) (t s : ℚ), 0 ≤ t → t ≤ 1 → 0 ≤ s → s ≤ 1 →
      0 ≤ (refineAux cP cQ tol fuel t s).t ∧
      (refineAux cP cQ tol fuel t s).t ≤ 1 ∧
      0 ≤ (refineAux cP cQ tol fuel t s).s ∧
      (refineAux cP cQ tol fuel t s).s ≤ 1 := by
  intro fuel
  induction fuel with
  | zero => intro t s h1 h2 h3 h4; exact ⟨h1, h2, h3, h4⟩
  | succ n ih =>
    intro t s h1 h2 h3 h4
    rw [refineAux]
    dsimp only
    by_cases hres : sqNorm (Fvec cP cQ t s) < tol ^ 2
    · rw [if_pos hres]; exact ⟨h1, h2, h3, h4⟩
    · rw [if_neg hres]
      rcases hns : newtonSolve cP cQ t s with _ | delta
      · exact ⟨h1, h2, h3, h4⟩
      · dsimp only
        by_cases hd : sqNorm delta < tol ^ 2
        · rw [if_pos hd]
          exact ⟨clip01_nonneg _, clip01_le_one _, clip01_nonneg _, clip01_le_one _⟩
        · rw [if_neg hd]
          exact ih _ _ (clip01_nonneg _) (clip01_le_one _)
            (clip01_nonneg _) (clip01_le_one _)

/-- Clustering only ever keeps input elements. -/
theorem mem_cluster (l : List Isect) (z : Isect) (hz : z ∈ cluster l) : z ∈ l := by
  rcases l with _ | ⟨x, rest⟩
  · simp [cluster] at hz
  · rw [cluster_cons] at hz
    exact mem_clusterRec rest x z hz

/-- **C8.** For every real seed pair — including seeds outside `[0,1]` — the
`(t, s)` returned by `refine_intersection_analytic` lie in `[0,1]` (the seed
is clamped on entry and after every Newton step), and consequently every
intersection record produced by the pipeline has `t, s ∈ [0,1]`. -/
theorem refined_parameters_in_unit :
    (∀ (cP cQ : Curve2) (t0 s0 tol : ℚ),
        0 ≤ (refine_intersection_analytic cP cQ t0 s0 tol).t ∧
        (refine_intersection_analytic cP cQ t0 s0 tol).t ≤ 1 ∧
        0 ≤ (refine_intersection_analytic cP cQ t0 s0 tol).s ∧
        (refine_intersection_analytic cP cQ t0 s0 tol).s ≤ 1) ∧
    (∀ (cP cQ : Curve2) (ms : MultiBezierSurface) (nS nT : ℕ) (tol : ℚ) (nseg : ℕ),
        ((clip_spline_by_geomdl_trim cP cQ ms nS nT tol nseg).intersections).all
          inUnitBox = true) := by
  have hrefine : ∀ (cP cQ : Curve2) (t0 s0 tol : ℚ),
      0 ≤ (refine_intersection_analytic cP cQ t0 s0 tol).t ∧
      (refine_intersection_analytic cP cQ t0 s0 tol).t ≤ 1 ∧
      0 ≤ (refine_intersection_analytic cP cQ t0 s0 tol).s ∧
      (refine_intersection_analytic cP cQ t0 s0 tol).s ≤ 1 := by
    intro cP cQ t0 s0 tol
    unfold refine_intersection_analytic
    exact refineAux_in_unit cP cQ tol 25 _ _ (clip01_nonneg _) (clip01_le_one _)
      (clip01_nonneg _) (clip01_le_one _)
  refine ⟨hrefine, ?_⟩
  intro cP cQ ms nS nT tol nseg
  rw [List.all_eq_true]
  intro x hx
  have hx2 : x ∈ cluster (sortByT (rawIntersections cP cQ nS nT tol)) := by
    simpa [clip_spline_by_geomdl_trim] using hx
  have hx3 : x ∈ sortByT (rawIntersections cP cQ nS nT tol) := mem_cluster _ x hx2
  have hx4 : x ∈ rawIntersections cP cQ nS nT tol :=
    (mem_sortKey (fun x : Isect => x.t) x _).1 hx3
  rw [rawIntersections_eq_map] at hx4
  rcases List.mem_map.1 hx4 with ⟨pr, _, hpr2⟩
  rcases hpr2 ▸ hrefine cP cQ pr.1 pr.2 tol with ⟨b1, b2, b3, b4⟩
  simp [inUnitBox, b1, b2, b3, b4]

/-- The boundary set `t_vals` is strictly increasing (sorted, duplicate-free:
Python's `sorted(list(set(...)))`). -/
theorem buildTvals_strict_sorted (ints : List Isect) :
    List.Pairwise (· < ·) (buildTvals ints) := by
  have hle : List.Pairwise (fun a b : ℚ => a ≤ b) (buildTvals ints) := by
    have := sorted_sortKey (α := ℚ) id
      ((([0] ++ ints.map (fun x : Isect => x.t) ++ [1]).map clip01).dedup)
    simpa [buildTvals] using this
  have hnd : (buildTvals ints).Nodup := by
    rw [buildTvals]
    exact (List.Perm.nodup_iff (perm_sortKey id _)).2 (List.nodup_dedup _)
  exact (hle.and hnd).imp fun h => lt_of_le_of_ne h.1 h.2

/-- Membership in the boundary set: exactly the clamped values of
`{0} ∪ {intersection t's} ∪ {1}`. -/
theorem mem_buildTvals (ints : List Isect) (x : ℚ) :
    x ∈ buildTvals ints ↔
      x ∈ ([0] ++ ints.map (fun i : Isect => i.t) ++ [1]).map clip01 := by
  rw [buildTvals, mem_sortKey, List.mem_dedup]

/-- Indexing a strictly sorted list is monotone. -/
theorem getD_mono_of_strict (l : List ℚ) (h : List.Pairwise (· < ·) l)
    (k k' : ℕ) (hk : k ≤ k') (hk' : k' < l.length) :
    l.getD k 0 ≤ l.getD k' 0 := by
  rcases Nat.lt_or_ge k k' with hlt | hge
  · have hkl : k < l.length := lt_trans hlt hk'
    rw [List.getD_eq_getElem l 0 hkl, List.getD_eq_getElem l 0 hk']
    exact le_of_lt (List.pairwise_iff_getElem.1 h k k' hkl hk' hlt)
  · have : k = k' := le_antisymm hk hge
    subst this
    exact le_rfl

/-- Characterization of a segment candidate's members. -/
theorem mem_segCandidate (cP : Curve2) (ms : MultiBezierSurface)
    (tvals : List ℚ) (trimPts : List Vec2) (nseg k : ℕ) (g : TrimSegment)
    (hg : g ∈ segCandidate cP ms tvals trimPts nseg k) :
    ¬ (tvals.getD (k + 1) 0 - tvals.getD k 0 < 1e-12) ∧
    g.t0 = tvals.getD k 0 ∧ g.t1 = tvals.getD (k + 1) 0 := by
  rw [segCandidate] at hg
  dsimp only at hg
  by_cases h1 : tvals.getD (k + 1) 0 - tvals.getD k 0 < 1e-12
  · rw [if_pos h1] at hg; simp at hg
  · rw [if_neg h1] at hg
    by_cases h2 : point_in_polygon
        (cP.eval ((1 / 2 : ℚ) * (tvals.getD k 0 + tvals.getD (k + 1) 0))) trimPts
    · rw [if_pos h2] at hg
      rcases List.mem_singleton.1 hg with rfl
      exact ⟨h1, rfl, rfl⟩
    · rw [if_neg h2] at hg; simp at hg

/-- With no intersections the boundary set is just `{0, 1}`. -/
theorem buildTvals_nil : buildTvals ([] : List Isect) = [0, 1] := by
  norm_num [buildTvals, clip01, sortKey, insertKey, List.dedup_cons_of_not_mem]

/-- **C4.** The Trimmer: (1) the boundary set `T = buildTvals ints` is strictly
increasing; (2) its members are exactly the clamped values of
`{0} ∪ {t of each clustered intersection} ∪ {1}` (sorted deduplication);
(3) every emitted segment's `[t0, t1]` is a consecutive pair of `T` with
`t1 - t0 ≥ 1e-12` (shorter pairs are skipped and produce nothing); (4) the
segments come in increasing-`t` order with non-interleaving `[t0, t1]`
ranges (`g.t1 ≤ h.t0` for `g` before `h`). -/
theorem trimmer_partition (ints : List Isect) (cP : Curve2)
    (ms : MultiBezierSurface) (trimPts : List Vec2) (nseg : ℕ) :
    List.Pairwise (· < ·) (buildTvals ints) ∧
    (∀ x : ℚ, x ∈ buildTvals ints ↔
        x ∈ ([0] ++ ints.map (fun i : Isect => i.t) ++ [1]).map clip01) ∧
    (∀ g ∈ buildSegments cP ms (buildTvals ints) trimPts nseg,
        ∃ k, k + 1 < (buildTvals ints).length ∧
          g.t0 = (buildTvals ints).getD k 0 ∧
          g.t1 = (buildTvals ints).getD (k + 1) 0 ∧
          (1e-12 : ℚ) ≤ g.t1 - g.t0) ∧
    List.Pairwise (fun g h : TrimSegment => g.t1 ≤ h.t0)
      (buildSegments cP ms (buildTvals ints) trimPts nseg) := by
  refine ⟨buildTvals_strict_sorted ints, mem_buildTvals ints, ?_, ?_⟩
  · intro g hg
    rw [buildSegments] at hg
    rcases List.mem_flatMap.1 hg with ⟨k, hk, hgk⟩
    have hkr := List.mem_range.1 hk
    rcases mem_segCandidate cP ms _ trimPts nseg k g hgk with ⟨hlen, h0, h1⟩
    refine ⟨k, by omega, h0, h1, ?_⟩
    rw [h0, h1]
    exact le_of_not_lt hlen
  · rw [buildSegments, List.pairwise_flatMap]
    constructor
    · intro k _
      rw [segCandidate]
      dsimp only
      split_ifs <;> simp
    · rw [List.pairwise_iff_getElem]
      intro i j hi hj hij
      simp only [List.getElem_range] at *
      intro g hg h hh
      rw [List.length_range] at hi hj
      rcases mem_segCandidate cP ms _ trimPts nseg i g hg with ⟨_, _, hg1⟩
      rcases mem_segCandidate cP ms _ trimPts nseg j h hh with ⟨_, hh0, _⟩
      rw [hg1, hh0]
      exact getD_mono_of_strict _ (buildTvals_strict_sorted ints) (i + 1) j
        (by omega) (by omega)

/-- Witness for `trimmer_partition`: with no intersections, the constant
inside curve and the sampled square, the single emitted segment is `[0, 1]`
and the theorem's consecutive-pair conclusion holds for it. -/
theorem trimmer_partition_witness :
    (⟨0, 1, [], [], []⟩ : TrimSegment) ∈
      buildSegments constInsideP msUnit (buildTvals []) squarePoly 0 ∧
    ∃ k, k + 1 < (buildTvals ([] : List Isect)).length ∧
      (⟨0, 1, [], [], []⟩ : TrimSegment).t0 = (buildTvals ([] : List Isect)).getD k 0 ∧
      (⟨0, 1, [], [], []⟩ : TrimSegment).t1 =
        (buildTvals ([] : List Isect)).getD (k + 1) 0 ∧
      (1e-12 : ℚ) ≤ (⟨0, 1, [], [], []⟩ : TrimSegment).t1 -
        (⟨0, 1, [], [], []⟩ : TrimSegment).t0 := by
  have htv : buildTvals ([] : List Isect) = [0, 1] := buildTvals_nil
  have hpoly : point_in_polygon (constInsideP.eval (1 / 2)) squarePoly = true := by
    norm_num [point_in_polygon, pipEdge, squarePoly, linspaceQ, List.range_succ,
      constInsideP, insideQ]
  have hmem : (⟨0, 1, [], [], []⟩ : TrimSegment) ∈
      buildSegments constInsideP msUnit (buildTvals []) squarePoly 0 := by
    rw [htv, buildSegments]
    norm_num [segCandidate, List.range_succ, linspaceQ, hpoly]
  exact ⟨hmem,
    (trimmer_partition [] constInsideP msUnit squarePoly 0).2.2.1 _ hmem⟩

/-- **C9.** If the seed-finding double loop produces zero intersections and
the UV-curve point at parameter `1/2` lies inside the sampled trim polygon
(the "curve entirely inside trim" scenario), then the pipeline returns an
empty intersections list and exactly one segment, spanning `t0 = 0` to
`t1 = 1`. -/
theorem curve_inside_trim_single_segment (cP cQ : Curve2)
    (ms : MultiBezierSurface) (nS nT : ℕ) (tol : ℚ) (nseg : ℕ)
    (hraw : rawIntersections cP cQ nS nT tol = [])
    (hin : point_in_polygon (cP.eval (1 / 2))
        ((linspaceQ 0 1 (nT + 1)).map cQ.eval) = true) :
    (clip_spline_by_geomdl_trim cP cQ ms nS nT tol nseg).intersections = [] ∧
    ∃ g, (clip_spline_by_geomdl_trim cP cQ ms nS nT tol nseg).segments = [g] ∧
      g.t0 = 0 ∧ g.t1 = 1 := by
  have hints : cluster (sortByT (rawIntersections cP cQ nS nT tol)) = [] := by
    rw [hraw]; rfl
  constructor
  · simp only [clip_spline_by_geomdl_trim]
    exact hints
  · simp only [clip_spline_by_geomdl_trim]
    rw [hints, buildTvals_nil, buildSegments]
    have hcand : segCandidate cP ms [0, 1] ((linspaceQ 0 1 (nT + 1)).map cQ.eval)
        nseg 0 =
        [{ t0 := 0, t1 := 1, ts := linspaceQ 0 1 nseg,
           UV := (linspaceQ 0 1 nseg).map cP.eval,
           pts3d := (linspaceQ 0 1 nseg).map fun t => evaluate3D cP.eval t ms }] := by
      rw [segCandidate]
      have h1 : ¬ (([0, 1] : List ℚ).getD 1 0 - ([0, 1] : List ℚ).getD 0 0 <
          1e-12) := by norm_num
      have h2 : (1 / 2 : ℚ) * (([0, 1] : List ℚ).getD 0 0 +
          ([0, 1] : List ℚ).getD 1 0) = 1 / 2 := by norm_num
      dsimp only
      rw [if_neg h1, h2, hin, if_pos rfl]
      norm_num
    simp only [List.length_cons, List.length_nil, List.range_succ, List.range_zero]
    refine ⟨TrimSegment.mk 0 1 (linspaceQ 0 1 nseg) ((linspaceQ 0 1 nseg).map cP.eval)
        ((linspaceQ 0 1 nseg).map fun t => evaluate3D cP.eval t ms), ?_, rfl, rfl⟩
    simp [hcand]

/-- Witness for `curve_inside_trim_single_segment`: `insideP` stays inside
the square sampled from `insideQ`; one spline segment against four trim
edges yields no crossing. -/
theorem curve_inside_trim_single_segment_witness :
    (rawIntersections insideP insideQ 1 4 (1 / 1000000000) = [] ∧
     point_in_polygon (insideP.eval (1 / 2))
       ((linspaceQ 0 1 (4 + 1)).map insideQ.eval) = true) ∧
    ((clip_spline_by_geomdl_trim insideP insideQ msUnit 1 4 (1 / 1000000000)
        2).intersections = [] ∧
     ∃ g, (clip_spline_by_geomdl_trim insideP insideQ msUnit 1 4 (1 / 1000000000)
        2).segments = [g] ∧ g.t0 = 0 ∧ g.t1 = 1) := by
  have hraw : rawIntersections insideP insideQ 1 4 (1 / 1000000000) = [] := by
    norm_num [rawIntersections, linspaceQ, List.range_succ, insideP, insideQ,
      segment_intersection_2d, abs_lt]
  have hin : point_in_polygon (insideP.eval (1 / 2))
      ((linspaceQ 0 1 (4 + 1)).map insideQ.eval) = true := by
    norm_num [point_in_polygon, pipEdge, linspaceQ, List.range_succ, insideP,
      insideQ]
  exact ⟨⟨hraw, hin⟩,
    curve_inside_trim_single_segment insideP insideQ msUnit 1 4 _ 2 hraw hin⟩

/-- Field computation lemmas for the constructed surface. -/
theorem mk_px (grid : ℕ → ℕ → Point3) (nx ny p : ℕ) :
    (mkMultiBezierSurface grid nx ny p).px = (nx - 1) / (p - 1) := rfl

theorem mk_py (grid : ℕ → ℕ → Point3) (nx ny p : ℕ) :
    (mkMultiBezierSurface grid nx ny p).py = (ny - 1) / (p - 1) := rfl

theorem mk_step (grid : ℕ → ℕ → Point3) (nx ny p : ℕ) :
    (mkMultiBezierSurface grid nx ny p).step = p - 1 := rfl

theorem mk_patches (grid : ℕ → ℕ → Point3) (nx ny p : ℕ) :
    (mkMultiBezierSurface grid nx ny p).patches =
      (patchCoords ((nx - 1) / (p - 1)) ((ny - 1) / (p - 1))).map fun q =>
        (q, fun a b => grid (q.1 * (p - 1) + a) (q.2 * (p - 1) + b)) := rfl

theorem mk_idx_by_coord (grid : ℕ → ℕ → Point3) (nx ny p : ℕ) :
    (mkMultiBezierSurface grid nx ny p).idx_by_coord =
      (patchCoords ((nx - 1) / (p - 1)) ((ny - 1) / (p - 1))).enum.map fun e =>
        (((e.2.1 : ℤ), (e.2.2 : ℤ)), e.1) := rfl

/-- Splitting the coordinate enumeration at the last outer row. -/
theorem patchCoords_succ (n py : ℕ) :
    patchCoords (n + 1) py = patchCoords n py ++ (List.range py).map (Prod.mk n) := by
  rw [patchCoords, patchCoords, List.range_succ]
  simp [List.product, List.flatMap_append]

/-- The double loop visits `px * py` coordinates. -/
theorem patchCoords_length (px py : ℕ) :
    (patchCoords px py).length = px * py := by
  rw [patchCoords]
  simpa using List.length_product (List.range px) (List.range py)

/-- The coordinate appended as the `(pi*py + pj)`-th element is `(pi, pj)`. -/
theorem patchCoords_getD (py : ℕ) :
    ∀ (px pi pj : ℕ), pi < px → pj < py →
      (patchCoords px py).getD (pi * py + pj) (0, 0) = (pi, pj) := by
  intro px
  induction px with
  | zero => omega
  | succ n ih =>
    intro pi pj h1 h2
    rw [patchCoords_succ]
    rcases Nat.lt_or_ge pi n with hlt | hge
    · rw [List.getD_append]
      · exact ih pi pj hlt h2
      · rw [patchCoords_length]
        calc pi * py + pj < pi * py + py := by omega
          _ = (pi + 1) * py := by ring
          _ ≤ n * py := Nat.mul_le_mul_right py hlt
    · have hpi : pi = n := by omega
      subst hpi
      rw [List.getD_append_right]
      · rw [patchCoords_length]
        have hidx : pi * py + pj - pi * py = pj := by omega
        rw [hidx]
        have hlen : pj < ((List.range py).map (Prod.mk pi)).length := by simpa
        rw [List.getD_eq_getElem _ _ hlen]
        simp
      · rw [patchCoords_length]
        omega

/-- Membership in the coordinate list is exactly the in-range condition. -/
theorem mem_patchCoords (px py : ℕ) (q : ℕ × ℕ) :
    q ∈ patchCoords px py ↔ q.1 < px ∧ q.2 < py := by
  rcases q with ⟨a, b⟩
  rw [patchCoords]
  have h := @List.pair_mem_product ℕ ℕ (List.range px) (List.range py) a b
  simp only [List.mem_range] at h
  exact h

/-- The coordinate list has no duplicates. -/
theorem patchCoords_nodup (px py : ℕ) : (patchCoords px py).Nodup := by
  rw [patchCoords]
  exact List.Nodup.product (List.nodup_range px) (List.nodup_range py)

/-- Dict lookup misses when the key is absent. -/
theorem lookupA_eq_none {α β : Type} [DecidableEq α] (l : List (α × β)) (a : α)
    (h : a ∉ l.map Prod.fst) : lookupA l a = none := by
  induction l with
  | nil => rfl
  | cons kv rest ih =>
    rcases kv with ⟨k, v⟩
    rw [lookupA]
    simp only [List.map_cons, List.mem_cons] at h
    push_neg at h
    rw [if_neg fun he => h.1 he.symm]
    exact ih h.2

/-- Dict lookup hits the unique binding of a present key. -/
theorem lookupA_of_mem {α β : Type} [DecidableEq α] :
    ∀ (l : List (α × β)) (a : α) (b : β), (l.map Prod.fst).Nodup →
      (a, b) ∈ l → lookupA l a = some b := by
  intro l
  induction l with
  | nil => intro a b _ hm; simp at hm
  | cons kv rest ih =>
    intro a b hnd hm
    rcases kv with ⟨k, v⟩
    rw [lookupA]
    rcases List.mem_cons.1 hm with he | hm2
    · rcases Prod.mk.injEq .. ▸ he with ⟨rfl, rfl⟩
      rw [if_pos rfl]
    · have hk : k ≠ a := by
        intro he
        subst he
        have : k ∈ rest.map Prod.fst := List.mem_map_of_mem Prod.fst hm2
        exact (List.nodup_cons.1 (by simpa using hnd)).1 this
      rw [if_neg hk]
      exact ih a b (List.nodup_cons.1 (by simpa using hnd)).2 hm2

/-- The keys of the patch-index dict, in insertion order. -/
theorem mk_idx_keys (grid : ℕ → ℕ → Point3) (nx ny p : ℕ) :
    (mkMultiBezierSurface grid nx ny p).idx_by_coord.map Prod.fst =
      (patchCoords ((nx - 1) / (p - 1)) ((ny - 1) / (p - 1))).map
        (fun q : ℕ × ℕ => ((q.1 : ℤ), (q.2 : ℤ))) := by
  rw [mk_idx_by_coord, List.map_map]
  conv_rhs => rw [← List.enum_map_snd
    (patchCoords ((nx - 1) / (p - 1)) ((ny - 1) / (p - 1))), List.map_map]
  rfl

/-- `patch_from_coord` on a constructed surface: the dict hit/miss condition
is exactly the in-range test, and a hit returns the flattened index
`pi * py + pj`. -/
theorem patch_from_coord_mk (grid : ℕ → ℕ → Point3) (nx ny p : ℕ) (pi pj : ℤ) :
    patch_from_coord (mkMultiBezierSurface grid nx ny p) pi pj =
      if 0 ≤ pi ∧ pi < ((mkMultiBezierSurface grid nx ny p).px : ℤ) ∧
          0 ≤ pj ∧ pj < ((mkMultiBezierSurface grid nx ny p).py : ℤ)
      then some (pi.toNat * (mkMultiBezierSurface grid nx ny p).py + pj.toNat)
      else none := by
  rw [patch_from_coord]
  by_cases h : 0 ≤ pi ∧ pi < ((mkMultiBezierSurface grid nx ny p).px : ℤ) ∧
      0 ≤ pj ∧ pj < ((mkMultiBezierSurface grid nx ny p).py : ℤ)
  · rw [if_pos h]
    rcases h with ⟨h1, h2, h3, h4⟩
    rw [mk_px] at h2
    rw [mk_py] at h4
    have hpi : pi.toNat < (nx - 1) / (p - 1) := by omega
    have hpj : pj.toNat < (ny - 1) / (p - 1) := by omega
    apply lookupA_of_mem
    · rw [mk_idx_keys]
      refine List.Nodup.map ?_ (patchCoords_nodup _ _)
      intro q1 q2 he
      simp only [Prod.mk.injEq] at he
      exact Prod.ext (by exact_mod_cast he.1) (by exact_mod_cast he.2)
    · rw [mk_idx_by_coord]
      set idx := pi.toNat * ((ny - 1) / (p - 1)) + pj.toNat with hidxdef
      have hlt : idx < (patchCoords ((nx - 1) / (p - 1)) ((ny - 1) / (p - 1))).length := by
        rw [patchCoords_length]
        calc idx < pi.toNat * ((ny - 1) / (p - 1)) + ((ny - 1) / (p - 1)) := by omega
          _ = (pi.toNat + 1) * ((ny - 1) / (p - 1)) := by ring
          _ ≤ (nx - 1) / (p - 1) * ((ny - 1) / (p - 1)) :=
            Nat.mul_le_mul_right _ hpi
      have hco : (patchCoords ((nx - 1) / (p - 1)) ((ny - 1) / (p - 1)))[idx] =
          (pi.toNat, pj.toNat) := by
        rw [← List.getD_eq_getElem _ (0, 0) hlt]
        exact patchCoords_getD _ _ pi.toNat pj.toNat hpi hpj
      have hlt2 : idx <
          (patchCoords ((nx - 1) / (p - 1)) ((ny - 1) / (p - 1))).enum.length := by
        simpa using hlt
      have henum : ((pi, pj), idx) =
          (fun e : ℕ × (ℕ × ℕ) => (((e.2.1 : ℤ), (e.2.2 : ℤ)), e.1))
            ((patchCoords ((nx - 1) / (p - 1)) ((ny - 1) / (p - 1))).enum[idx]) := by
        rw [List.getElem_enum, hco]
        simp [Int.toNat_of_nonneg h1, Int.toNat_of_nonneg h3]
      rw [mk_py, henum]
      exact List.mem_map_of_mem _ (List.getElem_mem _)
  · rw [if_neg h]
    apply lookupA_eq_none
    rw [mk_idx_keys]
    intro hmem
    rcases List.mem_map.1 hmem with ⟨q, hq, he⟩
    rcases (mem_patchCoords _ _ q).1 hq with ⟨hq1, hq2⟩
    simp only [Prod.mk.injEq] at he
    rw [mk_px, mk_py] at h
    push_neg at h
    omega

/-- Flattened double-loop index bound. -/
theorem flat_index_lt (px py pi pj : ℕ) (h1 : pi < px) (h2 : pj < py) :
    pi * py + pj < px * py :=
  calc pi * py + pj < pi * py + py := by omega
    _ = (pi + 1) * py := by ring
    _ ≤ px * py := Nat.mul_le_mul_right py h1

/-- The patch stored at flattened index `pi * py + pj` carries coordinate
`(pi, pj)` and the control sub-grid sliced at offsets `(pi*step, pj*step)`. -/
theorem patches_getD (grid : ℕ → ℕ → Point3) (nx ny p pi pj : ℕ)
    (h1 : pi < (nx - 1) / (p - 1)) (h2 : pj < (ny - 1) / (p - 1)) :
    (mkMultiBezierSurface grid nx ny p).patches.getD
        (pi * ((ny - 1) / (p - 1)) + pj) ((0, 0), fun _ _ => (0, 0, 0)) =
      ((pi, pj), fun a b => grid (pi * (p - 1) + a) (pj * (p - 1) + b)) := by
  rw [mk_patches]
  have hlt : pi * ((ny - 1) / (p - 1)) + pj <
      (patchCoords ((nx - 1) / (p - 1)) ((ny - 1) / (p - 1))).length := by
    rw [patchCoords_length]
    exact flat_index_lt _ _ pi pj h1 h2
  rw [List.getD_eq_getElem _ _ (by simpa using hlt), List.getElem_map]
  have hco : (patchCoords ((nx - 1) / (p - 1)) ((ny - 1) / (p - 1)))[
      pi * ((ny - 1) / (p - 1)) + pj] = (pi, pj) := by
    rw [← List.getD_eq_getElem _ (0, 0) hlt]
    exact patchCoords_getD _ _ pi pj h1 h2
  rw [hco]

/-- Every stored patch's coordinate is in range. -/
theorem mem_patches_bounds (grid : ℕ → ℕ → Point3) (nx ny p : ℕ)
    (q : (ℕ × ℕ) × (ℕ → ℕ → Point3))
    (hq : q ∈ (mkMultiBezierSurface grid nx ny p).patches) :
    q.1.1 < (nx - 1) / (p - 1) ∧ q.1.2 < (ny - 1) / (p - 1) := by
  rw [mk_patches] at hq
  rcases List.mem_map.1 hq with ⟨c, hc, he⟩
  have hm := (mem_patchCoords _ _ c).1 hc
  rw [← he]
  exact hm

/-- **C1 (counterexample).** The claim says construction "fails with a
ConfigurationError before any evaluation whenever (nx−1) or (ny−1) is not
divisible by step".  The constructor has no failure path at all: with a
6×7 grid and `patch_size = 4` (step 3, and 3 ∤ 5) it succeeds and silently
produces `px = ⌊5/3⌋ = 1`, `py = 2`, i.e. two patches. -/
theorem configuration_error_counterexample :
    ¬ ((4 - 1 : ℕ) ∣ (6 - 1 : ℕ)) ∧
    (mkMultiBezierSurface gridZ 6 7 4).px = 1 ∧
    (mkMultiBezierSurface gridZ 6 7 4).py = 2 ∧
    (mkMultiBezierSurface gridZ 6 7 4).patches.length = 2 := by
  refine ⟨by norm_num, rfl, rfl, ?_⟩
  rw [mk_patches, List.length_map, patchCoords_length]

/-- **C1 (amended).** Construction never fails, for any divisibility: it
produces `px = (nx−1)/step` by `py = (ny−1)/step` patches with `ℕ`-floor
division.  When `(nx−1)` and `(ny−1)` are exact multiples of
`step = patch_size − 1`, these are the exact quotients (`px·step = nx−1`,
`py·step = ny−1`), the patch at `(pi, pj)` owns the `p×p` sub-grid starting
at row `pi·step` and column `pj·step`, and the row index ranges of patches
`(pi, ·)` and `(pi+1, ·)` overlap in exactly the single row `(pi+1)·step`
(the same arithmetic read with `pj` gives the shared column). -/
theorem patch_grid_construction (grid : ℕ → ℕ → Point3) (nx ny p : ℕ)
    (hx : (p - 1) ∣ (nx - 1)) (hy : (p - 1) ∣ (ny - 1)) :
    (mkMultiBezierSurface grid nx ny p).px * (p - 1) = nx - 1 ∧
    (mkMultiBezierSurface grid nx ny p).py * (p - 1) = ny - 1 ∧
    (mkMultiBezierSurface grid nx ny p).patches.length =
      (mkMultiBezierSurface grid nx ny p).px *
        (mkMultiBezierSurface grid nx ny p).py ∧
    (∀ pi pj : ℕ, pi < (mkMultiBezierSurface grid nx ny p).px →
        pj < (mkMultiBezierSurface grid nx ny p).py →
        (mkMultiBezierSurface grid nx ny p).patches.getD
            (pi * (mkMultiBezierSurface grid nx ny p).py + pj)
            ((0, 0), fun _ _ => (0, 0, 0)) =
          ((pi, pj), fun a b => grid (pi * (p - 1) + a) (pj * (p - 1) + b))) ∧
    (∀ pi i : ℕ,
        ((pi * (p - 1) ≤ i ∧ i ≤ pi * (p - 1) + (p - 1)) ∧
          ((pi + 1) * (p - 1) ≤ i ∧ i ≤ (pi + 1) * (p - 1) + (p - 1))) ↔
          i = (pi + 1) * (p - 1)) := by
  refine ⟨Nat.div_mul_cancel hx, Nat.div_mul_cancel hy, ?_, ?_, ?_⟩
  · rw [mk_patches, List.length_map, patchCoords_length, mk_px, mk_py]
  · intro pi pj h1 h2
    rw [mk_px] at h1
    rw [mk_py] at h2
    rw [mk_py]
    exact patches_getD grid nx ny p pi pj h1 h2
  · intro pi i
    have he : (pi + 1) * (p - 1) = pi * (p - 1) + (p - 1) := by ring
    rw [he]
    omega

/-- Witness for `patch_grid_construction` on the exactly divisible 7×7 grid
with `patch_size = 4` (the source's own configuration). -/
theorem patch_grid_construction_witness :
    ((4 - 1 : ℕ) ∣ (7 - 1 : ℕ)) ∧
    ((mkMultiBezierSurface gridZ 7 7 4).px * (4 - 1) = 7 - 1 ∧
     (mkMultiBezierSurface gridZ 7 7 4).patches.length =
       (mkMultiBezierSurface gridZ 7 7 4).px *
         (mkMultiBezierSurface gridZ 7 7 4).py) ∧
    (1 < (mkMultiBezierSurface gridZ 7 7 4).px ∧
     1 < (mkMultiBezierSurface gridZ 7 7 4).py ∧
     (mkMultiBezierSurface gridZ 7 7 4).patches.getD
         (1 * (mkMultiBezierSurface gridZ 7 7 4).py + 1)
         ((0, 0), fun _ _ => (0, 0, 0)) =
       ((1, 1), fun a b => gridZ (1 * (4 - 1) + a) (1 * (4 - 1) + b))) := by
  have h2 : (4 - 1 : ℕ) ∣ (7 - 1 : ℕ) := by norm_num
  have hx : 1 < (mkMultiBezierSurface gridZ 7 7 4).px := by rw [mk_px]; norm_num
  have hy : 1 < (mkMultiBezierSurface gridZ 7 7 4).py := by rw [mk_py]; norm_num
  have h := patch_grid_construction gridZ 7 7 4 h2 h2
  exact ⟨h2, ⟨h.1, h.2.2.1⟩, hx, hy, h.2.2.2.1 1 1 hx hy⟩

/-- **C10.** With a grid whose `(nx−1)` or `(ny−1)` is not a multiple of
`patch_size − 1`, construction still succeeds (it is a total function with no
error path) and silently truncates: it yields `⌊(nx−1)/step⌋ × ⌊(ny−1)/step⌋`
patches (`ℕ` division is floor), and any control-point row index
`i > px·step` (resp. column index `j > py·step`) lies in no stored patch's
row (resp. column) range `[c·step, c·step + (p−1)]`. -/
theorem silent_truncation (grid : ℕ → ℕ → Point3) (nx ny p : ℕ) :
    (mkMultiBezierSurface grid nx ny p).px = (nx - 1) / (p - 1) ∧
    (mkMultiBezierSurface grid nx ny p).py = (ny - 1) / (p - 1) ∧
    (mkMultiBezierSurface grid nx ny p).patches.length =
      ((nx - 1) / (p - 1)) * ((ny - 1) / (p - 1)) ∧
    (∀ i : ℕ, (mkMultiBezierSurface grid nx ny p).px * (p - 1) < i →
        ∀ q ∈ (mkMultiBezierSurface grid nx ny p).patches,
          ¬ (q.1.1 * (p - 1) ≤ i ∧ i ≤ q.1.1 * (p - 1) + (p - 1))) ∧
    (∀ j : ℕ, (mkMultiBezierSurface grid nx ny p).py * (p - 1) < j →
        ∀ q ∈ (mkMultiBezierSurface grid nx ny p).patches,
          ¬ (q.1.2 * (p - 1) ≤ j ∧ j ≤ q.1.2 * (p - 1) + (p - 1))) := by
  refine ⟨rfl, rfl, ?_, ?_, ?_⟩
  · rw [mk_patches, List.length_map, patchCoords_length]
  · intro i hi q hq hcon
    rcases mem_patches_bounds grid nx ny p q hq with ⟨hb, _⟩
    rw [mk_px] at hi
    have hmul : (q.1.1 + 1) * (p - 1) ≤ ((nx - 1) / (p - 1)) * (p - 1) :=
      Nat.mul_le_mul_right (p - 1) hb
    have he : (q.1.1 + 1) * (p - 1) = q.1.1 * (p - 1) + (p - 1) := by ring
    omega
  · intro j hj q hq hcon
    rcases mem_patches_bounds grid nx ny p q hq with ⟨_, hb⟩
    rw [mk_py] at hj
    have hmul : (q.1.2 + 1) * (p - 1) ≤ ((ny - 1) / (p - 1)) * (p - 1) :=
      Nat.mul_le_mul_right (p - 1) hb
    have he : (q.1.2 + 1) * (p - 1) = q.1.2 * (p - 1) + (p - 1) := by ring
    omega

/-- Witness for `silent_truncation` at the non-divisible 6×7 grid with
`patch_size = 4`: row index `i = 4` exceeds `px·step = 3` and indeed lies in
no stored patch's row range (shown here for the concrete stored patch
`patchW`). -/
theorem silent_truncation_witness :
    ((mkMultiBezierSurface gridZ 6 7 4).px * (4 - 1) < 4 ∧
     patchW ∈ (mkMultiBezierSurface gridZ 6 7 4).patches) ∧
    (mkMultiBezierSurface gridZ 6 7 4).patches.length =
      ((6 - 1) / (4 - 1)) * ((7 - 1) / (4 - 1)) ∧
    ¬ (patchW.1.1 * (4 - 1) ≤ 4 ∧ 4 ≤ patchW.1.1 * (4 - 1) + (4 - 1)) := by
  have hi : (mkMultiBezierSurface gridZ 6 7 4).px * (4 - 1) < 4 := by
    rw [mk_px]; norm_num
  have hmem : patchW ∈ (mkMultiBezierSurface gridZ 6 7 4).patches := by
    rw [mk_patches]
    rw [show patchCoords ((6 - 1) / (4 - 1)) ((7 - 1) / (4 - 1)) =
      [(0, 0), (0, 1)] from rfl]
    exact List.mem_cons.2 (Or.inl rfl)
  exact ⟨⟨hi, hmem⟩, (silent_truncation gridZ 6 7 4).2.2.1,
    (silent_truncation gridZ 6 7 4).2.2.2.1 4 hi patchW hmem⟩

/-- **C5.** `evaluate3D` never raises (it is a total function): when the
integer patch coordinate `(⌊U⌋, ⌊V⌋)` of the UV point falls outside
`[0, px) × [0, py)` it returns the NaN-sentinel point (embedded as `none`);
otherwise it evaluates the patch at that coordinate at the local parameters
`clip(U − ⌊U⌋, 0, 1)` and `clip(V − ⌊V⌋, 0, 1)`. -/
theorem evaluate3D_domain_sentinel (grid : ℕ → ℕ → Point3) (nx ny p : ℕ)
    (f : ℚ → Vec2) (t : ℚ) :
    ((⌊(f t).1⌋ < 0 ∨ ((mkMultiBezierSurface grid nx ny p).px : ℤ) ≤ ⌊(f t).1⌋ ∨
      ⌊(f t).2⌋ < 0 ∨ ((mkMultiBezierSurface grid nx ny p).py : ℤ) ≤ ⌊(f t).2⌋) →
      evaluate3D f t (mkMultiBezierSurface grid nx ny p) = none) ∧
    (0 ≤ ⌊(f t).1⌋ → ⌊(f t).1⌋ < ((mkMultiBezierSurface grid nx ny p).px : ℤ) →
      0 ≤ ⌊(f t).2⌋ → ⌊(f t).2⌋ < ((mkMultiBezierSurface grid nx ny p).py : ℤ) →
      evaluate3D f t (mkMultiBezierSurface grid nx ny p) =
        some (eval_patch (mkMultiBezierSurface grid nx ny p)
          (⌊(f t).1⌋.toNat * (mkMultiBezierSurface grid nx ny p).py +
            ⌊(f t).2⌋.toNat)
          (clip01 ((f t).1 - (⌊(f t).1⌋ : ℚ)))
          (clip01 ((f t).2 - (⌊(f t).2⌋ : ℚ))))) := by
  constructor
  · intro h
    rw [evaluate3D]
    rw [patch_from_coord_mk, if_neg (by omega)]
  · intro h1 h2 h3 h4
    rw [evaluate3D]
    rw [patch_from_coord_mk, if_pos ⟨h1, h2, h3, h4⟩]

/-- Witness for `evaluate3D_domain_sentinel` on the one-patch surface
`msUnit`: the UV point `(5, 0)` is out of domain (sentinel), the UV point
`(1/2, 1/2)` is in the sole patch. -/
theorem evaluate3D_domain_sentinel_witness :
    (((msUnit.px : ℤ) ≤ ⌊(outsideUV 0).1⌋) ∧
      evaluate3D outsideUV 0 msUnit = none) ∧
    ((0 ≤ ⌊(midUV 0).1⌋ ∧ ⌊(midUV 0).1⌋ < (msUnit.px : ℤ) ∧
      0 ≤ ⌊(midUV 0).2⌋ ∧ ⌊(midUV 0).2⌋ < (msUnit.py : ℤ)) ∧
      evaluate3D midUV 0 msUnit =
        some (eval_patch msUnit
          (⌊(midUV 0).1⌋.toNat * msUnit.py + ⌊(midUV 0).2⌋.toNat)
          (clip01 ((midUV 0).1 - (⌊(midUV 0).1⌋ : ℚ)))
          (clip01 ((midUV 0).2 - (⌊(midUV 0).2⌋ : ℚ))))) := by
  have hout : ((msUnit.px : ℤ) ≤ ⌊(outsideUV 0).1⌋) := by
    norm_num [outsideUV, msUnit, mk_px]
  have ha : (0 : ℤ) ≤ ⌊(midUV 0).1⌋ := by norm_num [midUV]
  have hb : ⌊(midUV 0).1⌋ < (msUnit.px : ℤ) := by
    norm_num [midUV, msUnit, mk_px]
  have hc : (0 : ℤ) ≤ ⌊(midUV 0).2⌋ := by norm_num [midUV]
  have hd : ⌊(midUV 0).2⌋ < (msUnit.py : ℤ) := by
    norm_num [midUV, msUnit, mk_py]
  exact ⟨⟨hout, (evaluate3D_domain_sentinel gridZ 2 2 2 outsideUV 0).1
      (Or.inr (Or.inl hout))⟩,
    ⟨⟨ha, hb, hc, hd⟩,
      (evaluate3D_domain_sentinel gridZ 2 2 2 midUV 0).2 ha hb hc hd⟩⟩

end Tesselate
